import Mathlib

/-!
A shallow embedding of the paper-kernel buffer/layout/diff engine found in
`src/scripts/clean-ui.js` (the `paperKernel.js` document: `createPaperKernel`,
`layoutWordWrapWithOffsets`, `computeHighlightLinesByAbsRange`,
`buildAnnotWindow`, `escHtml` and the kernel actions used by the claims).

Modelling conventions:
* JS strings are modelled as `List Char`; `String.prototype.length` counts
  UTF-16 code units while `List.length` counts code points — these agree on
  all ASCII data, which is all the engine's claims exercise.
* JS numbers reaching the kernel as line anchors are modelled as `Int`
  (`Number(x) || d` is `jsOr`); the width passed to `setCols` is modelled as
  `Option ℚ`, where `none` stands for a non-finite number (`Number.isFinite`
  fails) and `Math.floor` is `Int.floor`.
* The cursor `while` loops of `layoutWordWrapWithOffsets` are rendered as
  fuel-indexed recursion.  The fuel supplied at every call site
  (`length + 1`) is sufficient whenever `cols ≥ 1`, because each produced
  line consumes at least one character; for `cols = 0` the JS loop does not
  terminate on a non-space character, while the model truncates (no claim
  touches `cols = 0`: the kernel default is 26 and `setCols` enforces
  `[10,120]`).
-/

namespace PaperKernel

/-- Model of `Number(n) || d` for an integral JS number: `0` (and `NaN`,
which `Int` cannot represent) is falsy and replaced by the default `d`. -/
def jsOr (n d : Int) : Int := if n = 0 then d else n

/-- JS `\s` (and `String.prototype.trim`) whitespace, restricted to the
ASCII range; the engine's data never contains unicode space classes. -/
def isWs (c : Char) : Bool :=
  c == ' ' || c == '\t' || c == '\n' || c == '\r' || c == '\x0B' || c == '\x0C'

/-- Model of `String.prototype.replace(/\s+/g, " ")`: every maximal
whitespace run becomes a single space. -/
def collapseWs : List Char → List Char
  | [] => []
  | [c] => if isWs c then [' '] else [c]
  | c :: c2 :: cs =>
    if isWs c && isWs c2 then collapseWs (c2 :: cs)
    else (if isWs c then ' ' else c) :: collapseWs (c2 :: cs)

/-- Model of `String.prototype.trim()`. -/
def trimWs (l : List Char) : List Char :=
  ((l.dropWhile isWs).reverse.dropWhile isWs).reverse

/-- One visual line of the wrapped layout: `{lineNo, text, start, end}` in
the source (`end` is a Lean keyword, so that field is called `stop`). -/
structure VisualLine where
  lineNo : Nat
  text : List Char
  start : Nat
  stop : Nat
deriving DecidableEq

/-- The cursor loop `while (cursor < para.length && para[cursor] === " ") cursor++`
of `layoutWordWrapWithOffsets`: how many spaces are skipped, and the rest. -/
def skipCount : List Char → Nat × List Char
  | [] => (0, [])
  | c :: cs => if c == ' ' then ((skipCount cs).1 + 1, (skipCount cs).2) else (0, c :: cs)

/-- The word scan `while (wEnd < para.length && para[wEnd] !== " ") wEnd++`:
splits off the maximal space-free prefix. -/
def takeWord : List Char → List Char × List Char
  | [] => ([], [])
  | c :: cs => if c == ' ' then ([], c :: cs) else (c :: (takeWord cs).1, (takeWord cs).2)

/-- State of the inner word-accumulation loop of `layoutWordWrapWithOffsets`
(source lines 170–198): accumulated `lineText`, `lineStartAbs`, `lineEndAbs`,
the cursor position, and the remaining characters of the paragraph. -/
structure BuildOut where
  text : List Char
  start : Nat
  stop : Nat
  pos : Nat
  rest : List Char
deriving DecidableEq

/-- The inner `while (cursor < para.length)` loop of
`layoutWordWrapWithOffsets` building one visual line.  `pos` is the absolute
position of `rest` in the buffer.  Greedy append while the candidate fits in
`cols`; a too-long word on an empty line is cut to `cols` characters and the
cursor resumes at the first untruncated character; a too-long word on a
non-empty line closes the line without moving the cursor. -/
def buildLine : Nat → Nat → Nat → List Char → List Char → Nat → Nat → BuildOut
  | 0, _, pos, rest, lineText, ls, le => ⟨lineText, ls, le, pos, rest⟩
  | fuel + 1, cols, pos, rest, lineText, ls, le =>
    let sk := skipCount rest
    let pos1 := pos + sk.1
    match sk.2 with
    | [] => ⟨lineText, ls, le, pos, rest⟩
    | c :: cs =>
      let tw := takeWord (c :: cs)
      let candidate := if lineText.isEmpty then tw.1 else lineText ++ ' ' :: tw.1
      if candidate.length ≤ cols then
        let ls1 := if lineText.isEmpty then pos1 else ls
        let pos2 := pos1 + tw.1.length
        let sk2 := skipCount tw.2
        buildLine fuel cols (pos2 + sk2.1) sk2.2 candidate ls1 pos2
      else
        if lineText.isEmpty then
          let cut := tw.1.take cols
          ⟨cut, pos1, pos1 + cut.length, pos1 + cut.length, (c :: cs).drop cut.length⟩
        else
          ⟨lineText, ls, le, pos, rest⟩

/-- The outer `while (cursor < para.length)` loop of
`layoutWordWrapWithOffsets`: the visual lines of one paragraph.  `n` is the
next line number and `pos` the absolute position of `rest`. -/
def paraLines : Nat → Nat → Nat → Nat → List Char → List VisualLine
  | 0, _, _, _, _ => []
  | fuel + 1, cols, n, pos, rest =>
    let sk := skipCount rest
    match sk.2 with
    | [] => []
    | c :: cs =>
      let out := buildLine (cs.length + 2) cols (pos + sk.1) (c :: cs) [] (pos + sk.1) (pos + sk.1)
      ⟨n, out.text, out.start, out.stop⟩ :: paraLines fuel cols (n + 1) out.pos out.rest

/-- The paragraph scan of `layoutWordWrapWithOffsets`
(`s.indexOf("\n", i)` loop): split the buffer on newline characters.  The
empty buffer is one empty paragraph; a trailing newline yields a final empty
paragraph. -/
def splitParas : List Char → List (List Char)
  | [] => [[]]
  | c :: cs =>
    if c == '\n' then [] :: splitParas cs
    else
      match splitParas cs with
      | [] => [[c]]
      | p :: ps => (c :: p) :: ps

/-- Per-paragraph work of `layoutWordWrapWithOffsets`: the wrapped lines of
the paragraph followed, for an empty paragraph, by the single empty visual
line (`if (para.length === 0) out.push({lineNo, text: "", start: pStart, end: pStart})`). -/
def paraBlock (cols n pos : Nat) (p : List Char) : List VisualLine :=
  let lines := paraLines (p.length + 1) cols n pos p
  lines ++ (if p.isEmpty then [⟨n + lines.length, [], pos, pos⟩] else [])

/-- All paragraphs in sequence; line numbering is continuous across the
buffer and the next paragraph starts one past this paragraph's newline. -/
def layoutParas (cols : Nat) : Nat → Nat → List (List Char) → List VisualLine
  | _, _, [] => []
  | n, pos, p :: ps =>
    paraBlock cols n pos p ++
      layoutParas cols (n + (paraBlock cols n pos p).length) (pos + p.length + 1) ps

/-- The same traversal keeping each paragraph's lines as a separate group
(specification helper for per-paragraph claims; `layoutParas` is its
flattening). -/
def paraGroups (cols : Nat) : Nat → Nat → List (List Char) → List (List VisualLine)
  | _, _, [] => []
  | n, pos, p :: ps =>
    paraBlock cols n pos p ::
      paraGroups cols (n + (paraBlock cols n pos p).length) (pos + p.length + 1) ps

/-- `layoutWordWrapWithOffsets(buffer, cols)`: wrap the whole buffer; if no
line was produced at all, fall back to the single empty line. -/
def layout (s : List Char) (cols : Nat) : List VisualLine :=
  let out := layoutParas cols 1 0 (splitParas s)
  if out.isEmpty then [⟨1, [], 0, 0⟩] else out

/-- Accumulator-style splitting of a paragraph into its space-delimited
words (specification helper used to state word preservation). -/
def wordsOfAux : List Char → List Char → List (List Char)
  | [], acc => if acc.isEmpty then [] else [acc.reverse]
  | c :: cs, acc =>
    if c == ' ' then
      if acc.isEmpty then wordsOfAux cs [] else acc.reverse :: wordsOfAux cs []
    else wordsOfAux cs (c :: acc)

/-- The space-delimited words of one paragraph. -/
def wordsOf (l : List Char) : List (List Char) := wordsOfAux l []

/-- All whitespace-delimited words of a buffer, paragraph by paragraph in
order. -/
def bufferWords (s : List Char) : List (List Char) :=
  (splitParas s).flatMap wordsOf

/-- Words joined by single spaces (the shape of an accumulated `lineText`). -/
def joinWords : List (List Char) → List Char
  | [] => []
  | [w] => w
  | w :: w2 :: ws => w ++ ' ' :: joinWords (w2 :: ws)

/-- A list of genuine words: each non-empty and space-free. -/
def goodWords (ws : List (List Char)) : Prop := ∀ w ∈ ws, w ≠ [] ∧ ∀ c ∈ w, c ≠ ' '

/-- `computeHighlightLinesByAbsRange(visLines, absStart, absEnd)`: the line
numbers of the visual lines whose half-open span overlaps `[a, b)`. -/
def computeHighlightLinesByAbsRange (visLines : List VisualLine) (absStart absEnd : Int) : List Nat :=
  let a := max 0 (jsOr absStart 0)
  let b := max a (jsOr absEnd a)
  (visLines.filter (fun v => decide ((v.start : Int) < b) && decide ((v.stop : Int) > a))).map
    (fun v => v.lineNo)

/-- `escHtml(s)`. -/
def escHtml (s : List Char) : List Char :=
  s.flatMap (fun c =>
    if c == '&' then ("&amp;".toList)
    else if c == '<' then ("&lt;".toList)
    else if c == '>' then ("&gt;".toList)
    else if c == '"' then ("&quot;".toList)
    else if c == '\'' then ("&#039;".toList)
    else [c])

/-- The `annot` record `{startLine, htmlLines}`. -/
structure Annot where
  startLine : Nat
  htmlLines : List (List Char)
deriving DecidableEq

/-- `buildAnnotWindow(afterVis, startLine, windowSize, highlightSet)`. -/
def buildAnnotWindow (afterVis : List VisualLine) (startLine windowSize : Nat)
    (highlightSet : List Nat) : Annot :=
  let slice := (afterVis.drop (startLine - 1)).take windowSize
  ⟨startLine, slice.map (fun v =>
    if v.text.isEmpty then []
    else if highlightSet.contains v.lineNo then
      ("<span class=\"newLineFull\">".toList) ++ escHtml v.text ++ ("</span>".toList)
    else escHtml v.text)⟩

/-- The `paper.diff` record. -/
structure DiffRecord where
  anchorLine : Int
  removedText : Option (List Char)
  removedLines : Option (List (List Char))
  highlightLines : List Nat
  annot : Annot
deriving DecidableEq

/-- The kernel state `paper` of `createPaperKernel`. -/
structure Paper where
  cols : Nat
  rev : Nat
  text : List Char
  diff : Option DiffRecord
deriving DecidableEq

/-- `createPaperKernel({cols})` initial state (the constructor argument is
not clamped; only `setCols` clamps). -/
def initialPaper (cols : Nat) : Paper := ⟨cols, 0, [], none⟩

/-- `seed(text)`. -/
def seed (p : Paper) (text : List Char) : Paper :=
  { p with text := text, rev := p.rev + 1, diff := none }

/-- `clearDiff()`. -/
def clearDiff (p : Paper) : Paper := { p with diff := none }

/-- `_setDiff({anchorLine, removedText, removedLines, highlightLines})`. -/
def setDiff (p : Paper) (anchorLine : Int) (removedText : Option (List Char))
    (removedLines : Option (List (List Char))) (highlightLines : List Nat) : Paper :=
  let afterVis := layout p.text p.cols
  let winStart := (max 1 (jsOr anchorLine 1 - 2)).toNat
  let annot := buildAnnotWindow afterVis winStart 45 highlightLines
  { p with diff := some ⟨jsOr anchorLine 1, removedText, removedLines, highlightLines, annot⟩ }

/-- Result record of `_writeReplaceInternal` (also the shape of the
`write_replace` / `clear_line` action results, which only add presentation
fields `op` / `clearedLine`).  Note: the source returns no `changed` field. -/
structure ReplaceResult where
  ok : Bool
  anchorLine : Nat
  removedText : Option (List Char)
  removedLines : Option (List (List Char))
  paper_rev : Nat
  highlightLines : List Nat
deriving DecidableEq

/-- `_writeReplaceInternal(anchorLine, newText)`. -/
def writeReplaceInternal (p : Paper) (anchorLine : Int) (newText : List Char) :
    Paper × ReplaceResult :=
  let beforeVis := layout p.text p.cols
  let N := (max 1 (min (jsOr anchorLine 1) (beforeVis.length : Int))).toNat
  let target := beforeVis.getD (N - 1) ⟨0, [], 0, 0⟩
  let oldText := target.text
  let rep := trimWs (collapseWs newText)
  let p1 : Paper := { p with text := p.text.take target.start ++ rep ++ p.text.drop target.stop,
                             rev := p.rev + 1 }
  let afterVis := layout p1.text p1.cols
  let highlightLines :=
    computeHighlightLinesByAbsRange afterVis (target.start : Int) ((target.start + rep.length : Nat) : Int)
  let isClear := rep.isEmpty
  let p2 := setDiff p1 (N : Int) (if isClear then none else some oldText)
      (if isClear then some [oldText] else none) highlightLines
  (p2, ⟨true, N, if isClear then none else some oldText,
        if isClear then some [oldText] else none, p1.rev, highlightLines⟩)

/-- `clear_line({line})` is `_writeReplaceInternal(line, "")`. -/
def clear_line (p : Paper) (line : Int) : Paper × ReplaceResult :=
  writeReplaceInternal p line []

/-- Result record of `write_append` (again, the source returns no `changed`
field). -/
structure AppendResult where
  ok : Bool
  reason : Option (List Char)
  paper_rev : Nat
  highlightLines : List Nat
deriving DecidableEq

/-- `write_append({text, ensureNewParagraph})`. -/
def write_append (p : Paper) (text : List Char) (ensureNewParagraph : Bool) :
    Paper × AppendResult :=
  let beforeVis := layout p.text p.cols
  let beforeLen := p.text.length
  let ins := trimWs text
  if ins.isEmpty then
    (p, ⟨false, some ("empty_text".toList), p.rev, []⟩)
  else
    let needsNL := ensureNewParagraph && !p.text.isEmpty && !(p.text.getLast? == some '\n')
    let absStart := beforeLen + (if needsNL then 1 else 0)
    let p1 : Paper := { p with text := p.text ++ (if needsNL then ['\n'] else []) ++ ins,
                               rev := p.rev + 1 }
    let afterVis := layout p1.text p1.cols
    let highlightLines :=
      computeHighlightLinesByAbsRange afterVis (absStart : Int) ((absStart + ins.length : Nat) : Int)
    let p2 := setDiff p1 ((max 1 beforeVis.length : Nat) : Int) none none highlightLines
    (p2, ⟨true, none, p1.rev, highlightLines⟩)

/-- One line of a `read` result. -/
structure ReadLine where
  line : Nat
  text : List Char
  start : Nat
  stop : Nat
deriving DecidableEq

/-- Result record of the `read` action. -/
structure ReadResult where
  rev : Nat
  startLine : Nat
  endLine : Nat
  lines : List ReadLine
deriving DecidableEq

/-- The pure `read({startLine, endLine})` action: `s` clamps into
`[1, lineCount]`; `e` clamps into `[s, lineCount]` (it is raised to `s`,
never swapped); the slice `vis.slice(s-1, e)` is returned. -/
def readAction (p : Paper) (startLine endLine : Int) : ReadResult :=
  let vis := layout p.text p.cols
  let s := (max 1 (min (jsOr startLine 1) (vis.length : Int))).toNat
  let e := (max (s : Int) (min (jsOr endLine (s : Int)) (vis.length : Int))).toNat
  ⟨p.rev, s, e,
   ((vis.drop (s - 1)).take (e + 1 - s)).map (fun v => ⟨v.lineNo, v.text, v.start, v.stop⟩)⟩

/-- `setCols(n)`: applied only when the width is finite and within
`[10, 120]`; otherwise the previous value is silently retained. -/
def setCols (p : Paper) (n : Option ℚ) : Paper :=
  match n with
  | none => p
  | some q => if 10 ≤ q ∧ q ≤ 120 then { p with cols := (⌊q⌋).toNat } else p

/-- The anchor-line clamp
`Math.max(1, Math.min(Number(anchorLine) || 1, beforeVis.length))`
(specification helper naming the subexpression of `writeReplaceInternal`). -/
def clampAnchor (p : Paper) (anchorLine : Int) : Nat :=
  (max 1 (min (jsOr anchorLine 1) ((layout p.text p.cols).length : Int))).toNat

/-- The visual line a replace resolves to. -/
def targetOf (p : Paper) (anchorLine : Int) : VisualLine :=
  (layout p.text p.cols).getD (clampAnchor p anchorLine - 1) ⟨0, [], 0, 0⟩

end PaperKernel

namespace PaperKernel

/-! ### Basic facts about the scanning primitives -/

theorem skipCount_len (l : List Char) : (skipCount l).1 + (skipCount l).2.length = l.length := by
  induction l with
  | nil => rfl
  | cons c cs ih =>
    by_cases h : c = ' '
    · subst h
      have h2 : skipCount (' ' :: cs) = ((skipCount cs).1 + 1, (skipCount cs).2) := rfl
      rw [h2]
      simp only [List.length_cons]
      omega
    · simp [skipCount, h]

theorem skipCount_head {l : List Char} {c : Char} {cs : List Char}
    (h : (skipCount l).2 = c :: cs) : c ≠ ' ' := by
  induction l with
  | nil => simp [skipCount] at h
  | cons a as ih =>
    by_cases ha : a = ' '
    · subst ha
      simp only [skipCount, beq_self_eq_true, if_pos] at h
      exact ih h
    · simp [skipCount, ha] at h
      obtain ⟨rfl, rfl⟩ := h
      exact ha

theorem skipCount_cons_nonspace {c : Char} (cs : List Char) (h : c ≠ ' ') :
    skipCount (c :: cs) = (0, c :: cs) := by
  simp [skipCount, h]

theorem skipCount_all_space {l : List Char} (h : ∀ c ∈ l, c = ' ') :
    skipCount l = (l.length, []) := by
  induction l with
  | nil => rfl
  | cons a as ih =>
    have ha : a = ' ' := h a (by simp)
    subst ha
    have h2 := ih (fun c hc => h c (by simp [hc]))
    simp [skipCount, h2]

theorem takeWord_append (l : List Char) : (takeWord l).1 ++ (takeWord l).2 = l := by
  induction l with
  | nil => rfl
  | cons c cs ih =>
    by_cases h : c = ' '
    · simp [takeWord, h]
    · simp [takeWord, h, ih]

theorem takeWord_len (l : List Char) : (takeWord l).1.length + (takeWord l).2.length = l.length := by
  have h := congrArg List.length (takeWord_append l)
  simpa using h

theorem takeWord_nonspace (l : List Char) : ∀ c ∈ (takeWord l).1, c ≠ ' ' := by
  induction l with
  | nil => simp [takeWord]
  | cons c cs ih =>
    by_cases h : c = ' '
    · simp [takeWord, h]
    · simp only [takeWord, beq_iff_eq, if_neg h]
      intro x hx
      rcases List.mem_cons.mp hx with rfl | hx
      · exact h
      · exact ih x hx

theorem takeWord_cons_nonspace {c : Char} (cs : List Char) (h : c ≠ ' ') :
    takeWord (c :: cs) = (c :: (takeWord cs).1, (takeWord cs).2) := by
  simp [takeWord, h]

theorem takeWord_rest (l : List Char) :
    (takeWord l).2 = [] ∨ ∃ cs, (takeWord l).2 = ' ' :: cs := by
  induction l with
  | nil => left; rfl
  | cons c cs ih =>
    by_cases h : c = ' '
    · subst h; right; exact ⟨cs, by simp [takeWord]⟩
    · simpa [takeWord, h] using ih

theorem takeWord_all_nonspace {l : List Char} (h : ∀ c ∈ l, c ≠ ' ') :
    takeWord l = (l, []) := by
  induction l with
  | nil => rfl
  | cons c cs ih =>
    have hc : c ≠ ' ' := h c (by simp)
    have h2 := ih (fun x hx => h x (by simp [hx]))
    simp [takeWord, hc, h2]

/-! ### One-step characterizations of the loop functions -/

theorem buildLine_succ_nil {rest : List Char} (fuel cols pos : Nat) (lineText : List Char)
    (ls le : Nat) (h : (skipCount rest).2 = []) :
    buildLine (fuel + 1) cols pos rest lineText ls le = ⟨lineText, ls, le, pos, rest⟩ := by
  rw [buildLine, h]

theorem buildLine_succ_cons {rest : List Char} {c : Char} {cs : List Char}
    (fuel cols pos : Nat) (lineText : List Char) (ls le : Nat)
    (h : (skipCount rest).2 = c :: cs) :
    buildLine (fuel + 1) cols pos rest lineText ls le =
      (if (if lineText.isEmpty then (takeWord (c :: cs)).1
           else lineText ++ ' ' :: (takeWord (c :: cs)).1).length ≤ cols then
        buildLine fuel cols
          (pos + (skipCount rest).1 + (takeWord (c :: cs)).1.length +
            (skipCount (takeWord (c :: cs)).2).1)
          (skipCount (takeWord (c :: cs)).2).2
          (if lineText.isEmpty then (takeWord (c :: cs)).1
           else lineText ++ ' ' :: (takeWord (c :: cs)).1)
          (if lineText.isEmpty then pos + (skipCount rest).1 else ls)
          (pos + (skipCount rest).1 + (takeWord (c :: cs)).1.length)
      else if lineText.isEmpty then
        ⟨(takeWord (c :: cs)).1.take cols, pos + (skipCount rest).1,
         pos + (skipCount rest).1 + ((takeWord (c :: cs)).1.take cols).length,
         pos + (skipCount rest).1 + ((takeWord (c :: cs)).1.take cols).length,
         (c :: cs).drop ((takeWord (c :: cs)).1.take cols).length⟩
      else ⟨lineText, ls, le, pos, rest⟩) := by
  rw [buildLine, h]

theorem paraLines_succ_nil {rest : List Char} (fuel cols n pos : Nat)
    (h : (skipCount rest).2 = []) :
    paraLines (fuel + 1) cols n pos rest = [] := by
  rw [paraLines, h]

theorem paraLines_succ_cons {rest : List Char} {c : Char} {cs : List Char}
    (fuel cols n pos : Nat) (h : (skipCount rest).2 = c :: cs) :
    paraLines (fuel + 1) cols n pos rest =
      ⟨n, (buildLine (cs.length + 2) cols (pos + (skipCount rest).1) (c :: cs) []
            (pos + (skipCount rest).1) (pos + (skipCount rest).1)).text,
        (buildLine (cs.length + 2) cols (pos + (skipCount rest).1) (c :: cs) []
            (pos + (skipCount rest).1) (pos + (skipCount rest).1)).start,
        (buildLine (cs.length + 2) cols (pos + (skipCount rest).1) (c :: cs) []
            (pos + (skipCount rest).1) (pos + (skipCount rest).1)).stop⟩ ::
      paraLines fuel cols (n + 1)
        (buildLine (cs.length + 2) cols (pos + (skipCount rest).1) (c :: cs) []
            (pos + (skipCount rest).1) (pos + (skipCount rest).1)).pos
        (buildLine (cs.length + 2) cols (pos + (skipCount rest).1) (c :: cs) []
            (pos + (skipCount rest).1) (pos + (skipCount rest).1)).rest := by
  rw [paraLines, h]

end PaperKernel

namespace PaperKernel

/-! ### Words of a paragraph -/

theorem goodWords_nil : goodWords [] := fun w hw => absurd hw (List.not_mem_nil w)

theorem wordsOfAux_nonspace_append {w : List Char} (hw : ∀ c ∈ w, c ≠ ' ') :
    ∀ (rest acc : List Char), wordsOfAux (w ++ rest) acc = wordsOfAux rest (w.reverse ++ acc) := by
  induction w with
  | nil => intro rest acc; simp
  | cons a as ih =>
    intro rest acc
    have ha : a ≠ ' ' := hw a (by simp)
    have ih2 := ih (fun c hc => hw c (by simp [hc])) rest (a :: acc)
    simp only [List.cons_append]
    rw [show wordsOfAux (a :: (as ++ rest)) acc = wordsOfAux (as ++ rest) (a :: acc) by
      simp [wordsOfAux, ha]]
    rw [ih2]
    congr 1
    simp [List.append_assoc]

theorem wordsOf_skipCount (l : List Char) : wordsOf (skipCount l).2 = wordsOf l := by
  induction l with
  | nil => rfl
  | cons a as ih =>
    by_cases ha : a = ' '
    · subst ha
      have h2 : skipCount (' ' :: as) = ((skipCount as).1 + 1, (skipCount as).2) := rfl
      rw [h2]
      rw [ih]
      rfl
    · simp [skipCount, ha]

theorem wordsOf_cons_word {c : Char} {cs : List Char} (hc : c ≠ ' ') :
    wordsOf (c :: cs) = (takeWord (c :: cs)).1 :: wordsOf (takeWord (c :: cs)).2 := by
  have hnsp := takeWord_nonspace (c :: cs)
  have hne : (takeWord (c :: cs)).1 ≠ [] := by
    rw [takeWord_cons_nonspace cs hc]; simp
  have hsplit := takeWord_append (c :: cs)
  conv_lhs => rw [← hsplit]
  rw [wordsOf, wordsOfAux_nonspace_append hnsp]
  rcases takeWord_rest (c :: cs) with h2 | ⟨cs2, h2⟩
  · rw [h2]
    simp [wordsOfAux, wordsOf, hne]
  · rw [h2]
    simp [wordsOfAux, wordsOf, hne]

theorem joinWords_eq_nil_iff {ws : List (List Char)} (h : goodWords ws) :
    joinWords ws = [] ↔ ws = [] := by
  constructor
  · intro hj
    cases ws with
    | nil => rfl
    | cons w ws' =>
      cases ws' with
      | nil => exact absurd hj (h w (by simp)).1
      | cons w2 ws'' => simp [joinWords] at hj
  · intro h2; subst h2; rfl

theorem joinWords_isEmpty_false {w : List Char} {ws : List (List Char)}
    (h : goodWords (w :: ws)) : (joinWords (w :: ws)).isEmpty = false := by
  have hne : joinWords (w :: ws) ≠ [] := by
    intro hj
    exact absurd ((joinWords_eq_nil_iff h).mp hj) (by simp)
  cases hjw : joinWords (w :: ws) with
  | nil => exact absurd hjw hne
  | cons a as => rfl

theorem joinWords_snoc (ws : List (List Char)) (w : List Char) :
    joinWords (ws ++ [w]) = if ws.isEmpty then w else joinWords ws ++ ' ' :: w := by
  induction ws with
  | nil => simp [joinWords]
  | cons a as ih =>
    cases as with
    | nil => simp [joinWords]
    | cons b bs =>
      simp only [List.cons_append] at ih ⊢
      rw [joinWords, ih]
      simp [joinWords, List.append_assoc]

theorem wordsOf_joinWords {ws : List (List Char)} (h : goodWords ws) :
    wordsOf (joinWords ws) = ws := by
  induction ws with
  | nil => rfl
  | cons w ws' ih =>
    have hw := h w (by simp)
    have h' : goodWords ws' := fun x hx => h x (by simp [hx])
    cases ws' with
    | nil =>
      cases w with
      | nil => exact absurd rfl hw.1
      | cons c cs =>
        have hc : c ≠ ' ' := hw.2 c (by simp)
        show wordsOf (c :: cs) = [c :: cs]
        rw [wordsOf_cons_word hc, takeWord_all_nonspace hw.2]
        rfl
    | cons w2 ws'' =>
      rw [joinWords]
      rw [wordsOf, wordsOfAux_nonspace_append hw.2]
      have hrev : w.reverse.isEmpty = false := by
        cases hw' : w.reverse with
        | nil => exact absurd (by simpa using hw') hw.1
        | cons x xs => rfl
      rw [show wordsOfAux (' ' :: joinWords (w2 :: ws'')) (w.reverse ++ []) =
            if (w.reverse ++ []).isEmpty then wordsOfAux (joinWords (w2 :: ws'')) []
            else (w.reverse ++ []).reverse :: wordsOfAux (joinWords (w2 :: ws'')) [] by
        simp [wordsOfAux]]
      simp only [List.append_nil, hrev, Bool.false_eq_true, if_false, List.reverse_reverse]
      rw [show wordsOfAux (joinWords (w2 :: ws'')) [] = wordsOf (joinWords (w2 :: ws'')) from rfl]
      rw [ih h']

end PaperKernel

namespace PaperKernel

/-! ### Word preservation through the line-building loops -/

theorem buildLine_rest_len : ∀ (fuel cols pos : Nat) (rest lineText : List Char) (ls le : Nat),
    (buildLine fuel cols pos rest lineText ls le).rest.length ≤ rest.length := by
  intro fuel
  induction fuel with
  | zero => intro cols pos rest lt ls le; exact le_rfl
  | succ fuel ih =>
    intro cols pos rest lt ls le
    cases hsk : (skipCount rest).2 with
    | nil =>
      rw [buildLine_succ_nil _ _ _ _ _ _ hsk]
    | cons c cs =>
      rw [buildLine_succ_cons _ _ _ _ _ _ hsk]
      have hsklen : (c :: cs).length ≤ rest.length := by
        have h1 := skipCount_len rest
        rw [hsk] at h1
        omega
      have h2 := takeWord_len (c :: cs)
      have h3 := skipCount_len (takeWord (c :: cs)).2
      by_cases hfit : (if lt.isEmpty then (takeWord (c :: cs)).1
          else lt ++ ' ' :: (takeWord (c :: cs)).1).length ≤ cols
      · rw [if_pos hfit]
        have h4 := ih cols (pos + (skipCount rest).1 + (takeWord (c :: cs)).1.length +
            (skipCount (takeWord (c :: cs)).2).1) (skipCount (takeWord (c :: cs)).2).2
            (if lt.isEmpty then (takeWord (c :: cs)).1 else lt ++ ' ' :: (takeWord (c :: cs)).1)
            (if lt.isEmpty then pos + (skipCount rest).1 else ls)
            (pos + (skipCount rest).1 + (takeWord (c :: cs)).1.length)
        omega
      · rw [if_neg hfit]
        by_cases hemp : lt.isEmpty <;> simp only [hemp, if_true, if_false]
        · simp only [List.length_drop]
          omega
        · exact le_rfl

theorem buildLine_words {cols : Nat} : ∀ (fuel pos : Nat) (rest : List Char)
    (ws : List (List Char)) (ls le : Nat),
    rest.length < fuel →
    (∀ w ∈ wordsOf rest, w.length ≤ cols) →
    goodWords ws →
    ∃ ks, goodWords ks ∧
      (buildLine fuel cols pos rest (joinWords ws) ls le).text = joinWords (ws ++ ks) ∧
      wordsOf rest = ks ++ wordsOf (buildLine fuel cols pos rest (joinWords ws) ls le).rest := by
  intro fuel
  induction fuel with
  | zero => intro pos rest ws ls le hf; omega
  | succ fuel ih =>
    intro pos rest ws ls le hf hwords hgood
    cases hsk : (skipCount rest).2 with
    | nil =>
      rw [buildLine_succ_nil _ _ _ _ _ _ hsk]
      exact ⟨[], goodWords_nil, by simp, by simp⟩
    | cons c cs =>
      have hc : c ≠ ' ' := skipCount_head hsk
      have hwrest : wordsOf rest = wordsOf (c :: cs) := by
        rw [← wordsOf_skipCount rest, hsk]
      have hsplit := @wordsOf_cons_word c cs hc
      have hw1 : (takeWord (c :: cs)).1 ≠ [] := by
        rw [takeWord_cons_nonspace cs hc]; simp
      have hw1sp := takeWord_nonspace (c :: cs)
      rw [buildLine_succ_cons _ _ _ _ _ _ hsk]
      have hcand : (if (joinWords ws).isEmpty then (takeWord (c :: cs)).1
            else joinWords ws ++ ' ' :: (takeWord (c :: cs)).1) =
          joinWords (ws ++ [(takeWord (c :: cs)).1]) := by
        rw [joinWords_snoc]
        cases ws with
        | nil => rfl
        | cons a as =>
          rw [joinWords_isEmpty_false hgood]
          simp
      rw [hcand]
      by_cases hfit : (joinWords (ws ++ [(takeWord (c :: cs)).1])).length ≤ cols
      · rw [if_pos hfit]
        have hgood2 : goodWords (ws ++ [(takeWord (c :: cs)).1]) := by
          intro x hx
          rcases List.mem_append.mp hx with hx | hx
          · exact hgood x hx
          · simp only [List.mem_singleton] at hx
            subst hx
            exact ⟨hw1, hw1sp⟩
        have hsklen : (skipCount rest).1 + (c :: cs).length = rest.length := by
          have h1 := skipCount_len rest
          rw [hsk] at h1
          omega
        have hlen2 := takeWord_len (c :: cs)
        have hlen3 := skipCount_len (takeWord (c :: cs)).2
        have htw1len : 1 ≤ (takeWord (c :: cs)).1.length := by
          cases h1 : (takeWord (c :: cs)).1 with
          | nil => exact absurd h1 hw1
          | cons x xs => simp [h1]
        have hfuel2 : (skipCount (takeWord (c :: cs)).2).2.length < fuel := by
          simp only [List.length_cons] at hsklen hlen2
          omega
        have hwords2 : ∀ w ∈ wordsOf (skipCount (takeWord (c :: cs)).2).2, w.length ≤ cols := by
          intro w hw2
          apply hwords
          rw [hwrest, hsplit]
          rw [wordsOf_skipCount] at hw2
          exact List.mem_cons.mpr (Or.inr hw2)
        obtain ⟨ks, hks1, hks2, hks3⟩ := ih _ _ (ws ++ [(takeWord (c :: cs)).1]) _ _
          hfuel2 hwords2 hgood2
        refine ⟨(takeWord (c :: cs)).1 :: ks, ?_, ?_, ?_⟩
        · intro x hx
          rcases List.mem_cons.mp hx with rfl | hx
          · exact ⟨hw1, hw1sp⟩
          · exact hks1 x hx
        · rw [hks2]
          congr 1
          simp
        · rw [hwrest, hsplit]
          rw [← wordsOf_skipCount (takeWord (c :: cs)).2]
          rw [hks3]
          rfl
      · rw [if_neg hfit]
        cases hws : ws with
        | nil =>
          exfalso
          apply hfit
          subst hws
          simp only [List.nil_append]
          have hmem : (takeWord (c :: cs)).1 ∈ wordsOf rest := by
            rw [hwrest, hsplit]
            exact List.mem_cons_self _ _
          have hlen := hwords _ hmem
          simpa [joinWords] using hlen
        | cons a as =>
          subst hws
          rw [joinWords_isEmpty_false hgood]
          simp only [Bool.false_eq_true, if_false]
          exact ⟨[], goodWords_nil, by simp, by simp⟩

theorem buildLine_progress {cols : Nat} (fuel pos : Nat) {c : Char} {cs : List Char}
    (ls le : Nat) (hc : c ≠ ' ')
    (hwords : ∀ w ∈ wordsOf (c :: cs), w.length ≤ cols) :
    (buildLine (fuel + 1) cols pos (c :: cs) [] ls le).rest.length < (c :: cs).length := by
  have hsk : (skipCount (c :: cs)).2 = c :: cs := by rw [skipCount_cons_nonspace cs hc]
  rw [buildLine_succ_cons _ _ _ _ _ _ hsk]
  have hw1 : (takeWord (c :: cs)).1 ≠ [] := by
    rw [takeWord_cons_nonspace cs hc]; simp
  have hfit : (if ([] : List Char).isEmpty then (takeWord (c :: cs)).1
      else [] ++ ' ' :: (takeWord (c :: cs)).1).length ≤ cols := by
    simp only [List.isEmpty_nil, if_true]
    apply hwords
    rw [wordsOf_cons_word hc]
    exact List.mem_cons_self _ _
  rw [if_pos hfit]
  have h1 := buildLine_rest_len fuel cols
    (pos + (skipCount (c :: cs)).1 + (takeWord (c :: cs)).1.length +
      (skipCount (takeWord (c :: cs)).2).1)
    (skipCount (takeWord (c :: cs)).2).2
    (if ([] : List Char).isEmpty then (takeWord (c :: cs)).1
      else [] ++ ' ' :: (takeWord (c :: cs)).1)
    (if ([] : List Char).isEmpty then pos + (skipCount (c :: cs)).1 else ls)
    (pos + (skipCount (c :: cs)).1 + (takeWord (c :: cs)).1.length)
  have h2 := takeWord_len (c :: cs)
  have h3 := skipCount_len (takeWord (c :: cs)).2
  have h4 : 1 ≤ (takeWord (c :: cs)).1.length := by
    cases h : (takeWord (c :: cs)).1 with
    | nil => exact absurd h hw1
    | cons x xs => simp [h]
  omega

theorem paraLines_words {cols : Nat} : ∀ (fuel n pos : Nat) (rest : List Char),
    rest.length < fuel →
    (∀ w ∈ wordsOf rest, w.length ≤ cols) →
    (paraLines fuel cols n pos rest).flatMap (fun v => wordsOf v.text) = wordsOf rest := by
  intro fuel
  induction fuel with
  | zero => intro n pos rest hf; omega
  | succ fuel ih =>
    intro n pos rest hf hwords
    cases hsk : (skipCount rest).2 with
    | nil =>
      rw [paraLines_succ_nil _ _ _ _ hsk]
      rw [← wordsOf_skipCount rest, hsk]
      rfl
    | cons c cs =>
      have hc : c ≠ ' ' := skipCount_head hsk
      have hwrest : wordsOf rest = wordsOf (c :: cs) := by
        rw [← wordsOf_skipCount rest, hsk]
      have hwords' : ∀ w ∈ wordsOf (c :: cs), w.length ≤ cols := by
        rw [← hwrest]; exact hwords
      rw [paraLines_succ_cons _ _ _ _ hsk]
      have hjn : joinWords ([] : List (List Char)) = [] := rfl
      obtain ⟨ks, hks1, hks2, hks3⟩ := buildLine_words (cs.length + 2)
        (pos + (skipCount rest).1) (c :: cs) [] (pos + (skipCount rest).1)
        (pos + (skipCount rest).1) (by simp) hwords' goodWords_nil
      rw [hjn] at hks2 hks3
      have hsklen : (c :: cs).length ≤ rest.length := by
        have h1 := skipCount_len rest
        rw [hsk] at h1
        omega
      have hprog : (buildLine (cs.length + 2) cols (pos + (skipCount rest).1) (c :: cs) []
          (pos + (skipCount rest).1) (pos + (skipCount rest).1)).rest.length <
          (c :: cs).length :=
        buildLine_progress (cs.length + 1) (pos + (skipCount rest).1)
          (pos + (skipCount rest).1) (pos + (skipCount rest).1) hc hwords'
      have htailfuel : (buildLine (cs.length + 2) cols (pos + (skipCount rest).1) (c :: cs) []
          (pos + (skipCount rest).1) (pos + (skipCount rest).1)).rest.length < fuel := by
        omega
      have htailwords : ∀ w ∈ wordsOf (buildLine (cs.length + 2) cols (pos + (skipCount rest).1)
          (c :: cs) [] (pos + (skipCount rest).1) (pos + (skipCount rest).1)).rest,
          w.length ≤ cols := by
        intro w hw
        apply hwords
        rw [hwrest, hks3]
        exact List.mem_append.mpr (Or.inr hw)
      rw [List.flatMap_cons]
      rw [ih _ _ _ htailfuel htailwords]
      rw [hks2]
      rw [show joinWords ([] ++ ks) = joinWords ks by rw [List.nil_append]]
      rw [wordsOf_joinWords hks1]
      rw [hwrest, hks3]

theorem paraBlock_words {cols n pos : Nat} {p : List Char}
    (hwords : ∀ w ∈ wordsOf p, w.length ≤ cols) :
    (paraBlock cols n pos p).flatMap (fun v => wordsOf v.text) = wordsOf p := by
  simp only [paraBlock]
  rw [List.flatMap_append]
  rw [paraLines_words _ _ _ _ (by omega) hwords]
  by_cases hp : p.isEmpty <;> simp [hp, wordsOf, wordsOfAux]

theorem layoutParas_words {cols : Nat} : ∀ (ps : List (List Char)) (n pos : Nat),
    (∀ w ∈ ps.flatMap wordsOf, w.length ≤ cols) →
    (layoutParas cols n pos ps).flatMap (fun v => wordsOf v.text) = ps.flatMap wordsOf := by
  intro ps
  induction ps with
  | nil => intro n pos h; rfl
  | cons p ps' ih =>
    intro n pos h
    rw [layoutParas]
    rw [List.flatMap_append, List.flatMap_cons]
    rw [paraBlock_words (fun w hw => h w (List.mem_append.mpr (Or.inl hw)))]
    rw [ih _ _ (fun w hw => h w (List.mem_append.mpr (Or.inr hw)))]

theorem layout_words {s : List Char} {cols : Nat}
    (h : ∀ w ∈ bufferWords s, w.length ≤ cols) :
    (layout s cols).flatMap (fun v => wordsOf v.text) = bufferWords s := by
  have hmain := layoutParas_words (splitParas s) 1 0 h
  simp only [layout]
  by_cases hout : (layoutParas cols 1 0 (splitParas s)).isEmpty
  · have hnil : layoutParas cols 1 0 (splitParas s) = [] := by
      cases hh : layoutParas cols 1 0 (splitParas s) with
      | nil => rfl
      | cons x xs => rw [hh] at hout; simp at hout
    rw [hnil] at hmain
    simp only [hnil, List.isEmpty_nil, if_true]
    rw [bufferWords, ← hmain]
    simp [wordsOf, wordsOfAux]
  · rw [if_neg (by simpa using hout)]
    exact hmain

/-! ### Rendered line length never exceeds the column width -/

theorem buildLine_text_len {cols : Nat} : ∀ (fuel pos : Nat) (rest lineText : List Char)
    (ls le : Nat), lineText.length ≤ cols →
    (buildLine fuel cols pos rest lineText ls le).text.length ≤ cols := by
  intro fuel
  induction fuel with
  | zero => intro pos rest lt ls le h; exact h
  | succ fuel ih =>
    intro pos rest lt ls le h
    cases hsk : (skipCount rest).2 with
    | nil =>
      rw [buildLine_succ_nil _ _ _ _ _ _ hsk]
      exact h
    | cons c cs =>
      rw [buildLine_succ_cons _ _ _ _ _ _ hsk]
      by_cases hfit : (if lt.isEmpty then (takeWord (c :: cs)).1
          else lt ++ ' ' :: (takeWord (c :: cs)).1).length ≤ cols
      · rw [if_pos hfit]
        exact ih _ _ _ _ _ hfit
      · rw [if_neg hfit]
        by_cases hemp : lt.isEmpty <;> simp only [hemp, if_true, if_false]
        · simp only [List.length_take]
          omega
        · exact h

theorem paraLines_text_len {cols : Nat} : ∀ (fuel n pos : Nat) (rest : List Char),
    ∀ v ∈ paraLines fuel cols n pos rest, v.text.length ≤ cols := by
  intro fuel
  induction fuel with
  | zero => intro n pos rest v hv; simp [paraLines] at hv
  | succ fuel ih =>
    intro n pos rest v hv
    cases hsk : (skipCount rest).2 with
    | nil =>
      rw [paraLines_succ_nil _ _ _ _ hsk] at hv
      simp at hv
    | cons c cs =>
      rw [paraLines_succ_cons _ _ _ _ hsk] at hv
      rcases List.mem_cons.mp hv with rfl | hv
      · exact buildLine_text_len _ _ _ _ _ _ (by simp)
      · exact ih _ _ _ v hv

theorem layout_text_len {s : List Char} {cols : Nat} :
    ∀ v ∈ layout s cols, v.text.length ≤ cols := by
  have hparas : ∀ (ps : List (List Char)) (n pos : Nat),
      ∀ v ∈ layoutParas cols n pos ps, v.text.length ≤ cols := by
    intro ps
    induction ps with
    | nil => intro n pos v hv; simp [layoutParas] at hv
    | cons p ps' ih =>
      intro n pos v hv
      rw [layoutParas] at hv
      rcases List.mem_append.mp hv with hv | hv
      · simp only [paraBlock] at hv
        rcases List.mem_append.mp hv with hv | hv
        · exact paraLines_text_len _ _ _ _ v hv
        · by_cases hp : p.isEmpty <;> simp [hp] at hv
          · rw [hv]; simp
      · exact ih _ _ v hv
  intro v hv
  simp only [layout] at hv
  by_cases hout : (layoutParas cols 1 0 (splitParas s)).isEmpty
  · simp only [hout, if_true] at hv
    simp at hv
    rw [hv]; simp
  · rw [if_neg (by simpa using hout)] at hv
    exact hparas _ _ _ v hv

end PaperKernel

namespace PaperKernel

/-! ### Claim C4 -/

/-- Claim C4 (amended): for every input text and every column width, no
rendered visual line is longer than `cols`; and whenever every
whitespace-delimited word of the buffer is at most `cols` characters long,
the words of the rendered lines, read in order, are exactly the buffer's
words paragraph by paragraph — none dropped, duplicated or reordered.  (A
word longer than `cols` is split across lines, so the original claim's
unconditional word preservation fails; see the counterexample.) -/
theorem layout_wrap_c4 (s : List Char) (cols : Nat) :
    (∀ v ∈ layout s cols, v.text.length ≤ cols) ∧
    ((∀ w ∈ bufferWords s, w.length ≤ cols) →
      (layout s cols).flatMap (fun v => wordsOf v.text) = bufferWords s) :=
  ⟨layout_text_len, fun h => layout_words h⟩

/-- Claim C4 witness: Scenario A, `"hello world this is a test line"` at
`columns = 10`: the first rendered line fits in 10 characters and the word
sequence is reproduced exactly. -/
theorem layout_wrap_c4_witness :
    ((layout ("hello world this is a test line".toList) 10).getD 0 ⟨0, [], 0, 0⟩).text.length ≤ 10 ∧
    (layout ("hello world this is a test line".toList) 10).flatMap (fun v => wordsOf v.text) =
      bufferWords ("hello world this is a test line".toList) :=
  ⟨(layout_wrap_c4 ("hello world this is a test line".toList) 10).1 _ (by decide),
   (layout_wrap_c4 ("hello world this is a test line".toList) 10).2 (by decide)⟩

/-- Claim C4 counterexample: at `columns = 10` the single 15-character word
`"abcdefghijklmno"` is split into two rendered lines, so the input's
whitespace-delimited word sequence does not appear in the rendered lines:
the word is dropped and replaced by its two fragments. -/
theorem layout_wrap_c4_cex :
    (layout ("abcdefghijklmno".toList) 10).map (fun v => v.text) =
      [("abcdefghij".toList), ("klmno".toList)] ∧
    bufferWords ("abcdefghijklmno".toList) = [("abcdefghijklmno".toList)] ∧
    (layout ("abcdefghijklmno".toList) 10).flatMap (fun v => wordsOf v.text) ≠
      bufferWords ("abcdefghijklmno".toList) := by
  decide

/-! ### Claim C1 -/

/-- Claim C1 (the code contradicts it): replacing line 1 of the buffer
`"abc"` with the identical text `"abc"` leaves the buffer text unchanged,
yet the revision counter still increments by 1 and the result reports
`ok = true`; the kernel result carries no `changed` field at all (see
`ReplaceResult`), although `server.js` reads `out.changed`. -/
theorem writeReplace_noop_advances_rev_c1 :
    (writeReplaceInternal (seed (initialPaper 26) ("abc".toList)) 1 ("abc".toList)).1.text =
      (seed (initialPaper 26) ("abc".toList)).text ∧
    (writeReplaceInternal (seed (initialPaper 26) ("abc".toList)) 1 ("abc".toList)).1.rev =
      (seed (initialPaper 26) ("abc".toList)).rev + 1 ∧
    (writeReplaceInternal (seed (initialPaper 26) ("abc".toList)) 1 ("abc".toList)).2.ok = true := by
  decide

/-! ### Claim C2 counterexample -/

/-- Claim C2 counterexample: on the 3-line buffer `"a\nb\nc"`, reversed
bounds are not swapped: `read(3, 1)` returns only line 3, while
`read(1, 3)` returns lines 1..3, so the two calls differ. -/
theorem read_reversed_not_swapped_c2_cex :
    (readAction (seed (initialPaper 26) ("a\nb\nc".toList)) 3 1).lines.map (fun l => l.line) =
      [3] ∧
    (readAction (seed (initialPaper 26) ("a\nb\nc".toList)) 1 3).lines.map (fun l => l.line) =
      [1, 2, 3] ∧
    (readAction (seed (initialPaper 26) ("a\nb\nc".toList)) 3 1).lines ≠
      (readAction (seed (initialPaper 26) ("a\nb\nc".toList)) 1 3).lines := by
  decide

/-! ### Claim C3 counterexample -/

/-- Claim C3 counterexample: on the 3-line buffer `"aaaa bbbbbbb x cc"` at
`columns = 10`, clearing line 2 (`write_replace(2, "")`) produces the
expected `removedLines`/`removedText`, but `highlightLines = [1] ≠ []`: after
the splice the words `"aaaa"` and `"cc"` re-wrap onto one line whose span
strictly contains the splice offset. -/
theorem writeReplace_clear_highlight_c3_cex :
    (writeReplaceInternal (seed (initialPaper 10) ("aaaa bbbbbbb x cc".toList)) 2 []).2.removedText =
      none ∧
    (writeReplaceInternal (seed (initialPaper 10) ("aaaa bbbbbbb x cc".toList)) 2 []).2.removedLines =
      some [("bbbbbbb x".toList)] ∧
    (writeReplaceInternal (seed (initialPaper 10) ("aaaa bbbbbbb x cc".toList)) 2 []).2.highlightLines =
      [1] ∧
    (writeReplaceInternal (seed (initialPaper 10) ("aaaa bbbbbbb x cc".toList)) 2 []).2.highlightLines ≠
      [] := by
  decide

/-! ### Claim C8 -/

/-- Claim C8: an append whose trimmed text is empty is rejected as a no-op:
the result is `ok = false` with reason code `"empty_text"`, the paper (text,
revision, diff) is returned unchanged, and the reported revision equals the
prior revision. -/
theorem write_append_empty_noop_c8 (p : Paper) (t : List Char) (enp : Bool)
    (h : trimWs t = []) :
    write_append p t enp = (p, ⟨false, some ("empty_text".toList), p.rev, []⟩) := by
  simp [write_append, h]

/-- Claim C8 witness: appending `"  "` to the seeded buffer `"abc"` is
rejected and leaves revision at 1. -/
theorem write_append_empty_noop_c8_witness :
    write_append (seed (initialPaper 26) ("abc".toList)) ("  ".toList) true =
      (seed (initialPaper 26) ("abc".toList), ⟨false, some ("empty_text".toList), 1, []⟩) := by
  rw [write_append_empty_noop_c8 _ _ true (by decide)]
  rfl

/-! ### Claim C9 -/

/-- Claim C9: `setCols` silently ignores a non-finite width (`none`) and any
width outside `[10, 120]`, keeping the previous state; a width within range
is applied as its integer floor, which again lies in `[10, 120]`, and
nothing else of the state changes.  (The model is a total function, so no
exception is possible.) -/
theorem setCols_clamp_c9 (p : Paper) (q : ℚ) :
    setCols p none = p ∧
    ((q < 10 ∨ 120 < q) → setCols p (some q) = p) ∧
    (10 ≤ q → q ≤ 120 →
      (setCols p (some q)).cols = (⌊q⌋).toNat ∧
      10 ≤ (setCols p (some q)).cols ∧ (setCols p (some q)).cols ≤ 120 ∧
      (setCols p (some q)).rev = p.rev ∧ (setCols p (some q)).text = p.text ∧
      (setCols p (some q)).diff = p.diff) := by
  refine ⟨rfl, ?_, ?_⟩
  · intro h
    have hcond : ¬(10 ≤ q ∧ q ≤ 120) := by
      rcases h with h | h
      · exact fun hc => absurd hc.1 (not_le.mpr h)
      · exact fun hc => absurd hc.2 (not_le.mpr h)
    simp [setCols, hcond]
  · intro h10 h120
    have hcond : 10 ≤ q ∧ q ≤ 120 := ⟨h10, h120⟩
    have hfl10 : (10 : ℤ) ≤ ⌊q⌋ := Int.le_floor.mpr (by exact_mod_cast h10)
    have h120' : ⌊(120 : ℚ)⌋ = (120 : ℤ) := by norm_num
    have hfl120 : ⌊q⌋ ≤ (120 : ℤ) := by
      have h2 : ⌊q⌋ ≤ ⌊(120 : ℚ)⌋ := Int.floor_le_floor h120
      omega
    have hset : setCols p (some q) = { p with cols := (⌊q⌋).toNat } := by
      simp [setCols, hcond]
    rw [hset]
    refine ⟨rfl, ?_, ?_, rfl, rfl, rfl⟩
    · show 10 ≤ (⌊q⌋).toNat
      omega
    · show (⌊q⌋).toNat ≤ 120
      omega

/-- Claim C9 witness: width 200 is ignored; width 23/2 (= 11.5) is applied
as 11. -/
theorem setCols_clamp_c9_witness :
    setCols (initialPaper 26) (some 200) = initialPaper 26 ∧
    (setCols (initialPaper 26) (some (23/2))).cols = 11 := by
  constructor
  · exact (setCols_clamp_c9 (initialPaper 26) 200).2.1 (Or.inr (by norm_num))
  · have h := (setCols_clamp_c9 (initialPaper 26) (23/2)).2.2 (by norm_num) (by norm_num)
    have h2 : ⌊(23/2 : ℚ)⌋ = 11 := by norm_num [Int.floor_eq_iff]
    rw [h.1, h2]
    rfl

end PaperKernel

namespace PaperKernel

/-! ### Offset ordering and line numbering -/

theorem buildLine_inv : ∀ (fuel cols pos : Nat) (rest lineText : List Char) (ls le : Nat),
    ls ≤ le → le ≤ pos →
    (buildLine fuel cols pos rest lineText ls le).start ≤
      (buildLine fuel cols pos rest lineText ls le).stop ∧
    (buildLine fuel cols pos rest lineText ls le).stop ≤
      (buildLine fuel cols pos rest lineText ls le).pos ∧
    pos ≤ (buildLine fuel cols pos rest lineText ls le).pos ∧
    (buildLine fuel cols pos rest lineText ls le).pos +
      (buildLine fuel cols pos rest lineText ls le).rest.length = pos + rest.length ∧
    ls ≤ (buildLine fuel cols pos rest lineText ls le).start := by
  intro fuel
  induction fuel with
  | zero =>
    intro cols pos rest lt ls le h1 h2
    exact ⟨h1, h2, le_rfl, rfl, le_rfl⟩
  | succ fuel ih =>
    intro cols pos rest lt ls le h1 h2
    cases hsk : (skipCount rest).2 with
    | nil =>
      rw [buildLine_succ_nil _ _ _ _ _ _ hsk]
      exact ⟨h1, h2, le_rfl, rfl, le_rfl⟩
    | cons c cs =>
      have hsklen : (skipCount rest).1 + (c :: cs).length = rest.length := by
        have h0 := skipCount_len rest
        rw [hsk] at h0
        omega
      have htw := takeWord_len (c :: cs)
      have hsk2 := skipCount_len (takeWord (c :: cs)).2
      rw [buildLine_succ_cons _ _ _ _ _ _ hsk]
      by_cases hemp : lt.isEmpty <;>
        simp only [hemp, Bool.false_eq_true, eq_self_iff_true, if_true, if_false]
      · by_cases hfit : ((takeWord (c :: cs)).1).length ≤ cols
        · rw [if_pos hfit]
          obtain ⟨o1, o2, o3, o4, o5⟩ := ih cols
            (pos + (skipCount rest).1 + (takeWord (c :: cs)).1.length +
              (skipCount (takeWord (c :: cs)).2).1)
            (skipCount (takeWord (c :: cs)).2).2
            (takeWord (c :: cs)).1
            (pos + (skipCount rest).1)
            (pos + (skipCount rest).1 + (takeWord (c :: cs)).1.length)
            (by omega) (by omega)
          exact ⟨o1, o2, by omega, by omega, by omega⟩
        · rw [if_neg hfit]
          refine ⟨?_, ?_, ?_, ?_, ?_⟩ <;>
            simp only [List.length_take, List.length_drop] <;> omega
      · by_cases hfit : (lt ++ ' ' :: (takeWord (c :: cs)).1).length ≤ cols
        · rw [if_pos hfit]
          obtain ⟨o1, o2, o3, o4, o5⟩ := ih cols
            (pos + (skipCount rest).1 + (takeWord (c :: cs)).1.length +
              (skipCount (takeWord (c :: cs)).2).1)
            (skipCount (takeWord (c :: cs)).2).2
            (lt ++ ' ' :: (takeWord (c :: cs)).1)
            ls
            (pos + (skipCount rest).1 + (takeWord (c :: cs)).1.length)
            (by omega) (by omega)
          exact ⟨o1, o2, by omega, by omega, by omega⟩
        · rw [if_neg hfit]
          exact ⟨h1, h2, le_rfl, rfl, le_rfl⟩

theorem paraLines_inv : ∀ (fuel cols n pos : Nat) (rest : List Char),
    (∀ v ∈ paraLines fuel cols n pos rest,
      pos ≤ v.start ∧ v.start ≤ v.stop ∧ v.stop ≤ pos + rest.length) ∧
    List.Chain' (fun a b => a.stop ≤ b.start) (paraLines fuel cols n pos rest) ∧
    (paraLines fuel cols n pos rest).map (fun v => v.lineNo) =
      List.range' n (paraLines fuel cols n pos rest).length := by
  intro fuel
  induction fuel with
  | zero =>
    intro cols n pos rest
    exact ⟨fun v hv => absurd hv (List.not_mem_nil v), List.chain'_nil, rfl⟩
  | succ fuel ih =>
    intro cols n pos rest
    cases hsk : (skipCount rest).2 with
    | nil =>
      rw [paraLines_succ_nil _ _ _ _ hsk]
      exact ⟨fun v hv => absurd hv (List.not_mem_nil v), List.chain'_nil, rfl⟩
    | cons c cs =>
      rw [paraLines_succ_cons _ _ _ _ hsk]
      have hsklen : (skipCount rest).1 + (c :: cs).length = rest.length := by
        have h0 := skipCount_len rest
        rw [hsk] at h0
        omega
      obtain ⟨b1, b2, b3, b4, b5⟩ := buildLine_inv (cs.length + 2) cols
        (pos + (skipCount rest).1) (c :: cs) [] (pos + (skipCount rest).1)
        (pos + (skipCount rest).1) le_rfl le_rfl
      set O := buildLine (cs.length + 2) cols (pos + (skipCount rest).1) (c :: cs) []
        (pos + (skipCount rest).1) (pos + (skipCount rest).1) with hO
      obtain ⟨t1, t2, t3⟩ := ih cols (n + 1) O.pos O.rest
      refine ⟨?_, ?_, ?_⟩
      · intro v hv
        rcases List.mem_cons.mp hv with rfl | hv
        · refine ⟨?_, ?_, ?_⟩
          · show pos ≤ O.start
            omega
          · show O.start ≤ O.stop
            exact b1
          · show O.stop ≤ pos + rest.length
            omega
        · obtain ⟨hv1, hv2, hv3⟩ := t1 v hv
          exact ⟨by omega, hv2, by omega⟩
      · refine List.chain'_cons'.mpr ⟨?_, t2⟩
        intro y hy
        obtain ⟨hy1, _, _⟩ := t1 y (List.mem_of_mem_head? hy)
        show O.stop ≤ y.start
        omega
      · simp only [List.map_cons, List.length_cons]
        rw [t3]
        rfl

theorem paraLines_nil_rest : ∀ (fuel cols n pos : Nat), paraLines fuel cols n pos [] = [] := by
  intro fuel cols n pos
  cases fuel with
  | zero => rfl
  | succ fuel => exact paraLines_succ_nil _ _ _ _ rfl

theorem paraBlock_inv (cols n pos : Nat) (p : List Char) :
    (∀ v ∈ paraBlock cols n pos p,
      pos ≤ v.start ∧ v.start ≤ v.stop ∧ v.stop ≤ pos + p.length) ∧
    List.Chain' (fun a b => a.stop ≤ b.start) (paraBlock cols n pos p) ∧
    (paraBlock cols n pos p).map (fun v => v.lineNo) =
      List.range' n (paraBlock cols n pos p).length := by
  obtain ⟨t1, t2, t3⟩ := paraLines_inv (p.length + 1) cols n pos p
  by_cases hp : p.isEmpty
  · have hpnil : p = [] := by
      cases p with
      | nil => rfl
      | cons a b => simp at hp
    subst hpnil
    simp only [paraBlock, paraLines_nil_rest, List.isEmpty_nil, if_true, List.nil_append,
      List.length_nil, Nat.add_zero]
    refine ⟨?_, List.chain'_singleton _, rfl⟩
    intro v hv
    simp only [List.mem_singleton] at hv
    subst hv
    exact ⟨le_rfl, le_rfl, le_rfl⟩
  · simp only [paraBlock, hp, Bool.false_eq_true, if_false, List.append_nil]
    exact ⟨t1, t2, t3⟩

theorem layoutParas_inv : ∀ (ps : List (List Char)) (cols n pos : Nat),
    (∀ v ∈ layoutParas cols n pos ps, pos ≤ v.start ∧ v.start ≤ v.stop) ∧
    List.Chain' (fun a b => a.stop ≤ b.start) (layoutParas cols n pos ps) ∧
    (layoutParas cols n pos ps).map (fun v => v.lineNo) =
      List.range' n (layoutParas cols n pos ps).length := by
  intro ps
  induction ps with
  | nil =>
    intro cols n pos
    exact ⟨fun v hv => absurd hv (List.not_mem_nil v), List.chain'_nil, rfl⟩
  | cons p ps' ih =>
    intro cols n pos
    obtain ⟨B1, B2, B3⟩ := paraBlock_inv cols n pos p
    obtain ⟨T1, T2, T3⟩ := ih cols (n + (paraBlock cols n pos p).length) (pos + p.length + 1)
    rw [layoutParas]
    refine ⟨?_, ?_, ?_⟩
    · intro v hv
      rcases List.mem_append.mp hv with hv | hv
      · obtain ⟨h1, h2, _⟩ := B1 v hv
        exact ⟨h1, h2⟩
      · obtain ⟨h1, h2⟩ := T1 v hv
        exact ⟨by omega, h2⟩
    · rw [List.chain'_append]
      refine ⟨B2, T2, ?_⟩
      intro x hx y hy
      obtain ⟨_, _, h3⟩ := B1 x (List.mem_of_mem_getLast? hx)
      obtain ⟨h4, _⟩ := T1 y (List.mem_of_mem_head? hy)
      omega
    · rw [List.map_append, B3, T3, List.length_append]
      have hr := List.range'_append n (paraBlock cols n pos p).length
        (layoutParas cols (n + (paraBlock cols n pos p).length) (pos + p.length + 1) ps').length 1
      simp only [one_mul] at hr
      rw [hr, Nat.add_comm]

/-- Helper packaging: order and numbering facts of a whole layout. -/
theorem layout_ordered (s : List Char) (cols : Nat) :
    (∀ v ∈ layout s cols, v.start ≤ v.stop) ∧
    List.Chain' (fun a b => a.stop ≤ b.start) (layout s cols) ∧
    (layout s cols).map (fun v => v.lineNo) = List.range' 1 (layout s cols).length := by
  obtain ⟨L1, L2, L3⟩ := layoutParas_inv (splitParas s) cols 1 0
  simp only [layout]
  by_cases hout : (layoutParas cols 1 0 (splitParas s)).isEmpty
  · simp only [hout, if_true]
    refine ⟨?_, List.chain'_singleton _, rfl⟩
    intro v hv
    simp only [List.mem_singleton] at hv
    subst hv
    exact le_rfl
  · rw [if_neg (by simpa using hout)]
    exact ⟨fun v hv => (L1 v hv).2, L2, L3⟩

/-- Claim C6: in every layout, every visual line satisfies `start ≤ stop`;
for all adjacent visual lines (in particular adjacent lines of one
paragraph) `line[i].stop ≤ line[i+1].start`; and the line numbers are
exactly `1, 2, …, lineCount` — 1-based, contiguous, strictly increasing
across the whole buffer. -/
theorem layout_offsets_c6 (s : List Char) (cols : Nat) :
    (∀ v ∈ layout s cols, v.start ≤ v.stop) ∧
    List.Chain' (fun a b => a.stop ≤ b.start) (layout s cols) ∧
    (layout s cols).map (fun v => v.lineNo) = List.range' 1 (layout s cols).length :=
  layout_ordered s cols

/-- Claim C6 witness: the layout of `"hello world"` at `columns = 5` has an
ordered first line and contiguous 1-based line numbers. -/
theorem layout_offsets_c6_witness :
    ((layout ("hello world".toList) 5).getD 0 ⟨0, [], 0, 0⟩).start ≤
      ((layout ("hello world".toList) 5).getD 0 ⟨0, [], 0, 0⟩).stop ∧
    (layout ("hello world".toList) 5).map (fun v => v.lineNo) =
      List.range' 1 (layout ("hello world".toList) 5).length :=
  ⟨(layout_offsets_c6 ("hello world".toList) 5).1 _ (by decide),
   (layout_offsets_c6 ("hello world".toList) 5).2.2⟩

end PaperKernel

namespace PaperKernel

/-! ### Per-paragraph grouping, empty paragraphs, space-only paragraphs -/

theorem paraGroups_flatten (cols : Nat) : ∀ (ps : List (List Char)) (n pos : Nat),
    layoutParas cols n pos ps = (paraGroups cols n pos ps).flatten := by
  intro ps
  induction ps with
  | nil => intro n pos; rfl
  | cons p ps' ih =>
    intro n pos
    rw [layoutParas, paraGroups, List.flatten_cons, ih]

theorem buildLine_rest_nil : ∀ (fuel cols pos : Nat) (lt : List Char) (ls le : Nat),
    buildLine fuel cols pos [] lt ls le = ⟨lt, ls, le, pos, []⟩ := by
  intro fuel cols pos lt ls le
  cases fuel with
  | zero => rfl
  | succ fuel => exact buildLine_succ_nil _ _ _ _ _ _ rfl

theorem paraLines_all_space {p : List Char} (h : ∀ c ∈ p, c = ' ') :
    ∀ (fuel cols n pos : Nat), paraLines fuel cols n pos p = [] := by
  intro fuel cols n pos
  cases fuel with
  | zero => rfl
  | succ fuel =>
    have hsk : (skipCount p).2 = [] := by rw [skipCount_all_space h]
    exact paraLines_succ_nil _ _ _ _ hsk

theorem paraBlock_all_space {p : List Char} (hne : p ≠ []) (h : ∀ c ∈ p, c = ' ')
    (cols n pos : Nat) : paraBlock cols n pos p = [] := by
  have hemp : p.isEmpty = false := by
    cases p with
    | nil => exact absurd rfl hne
    | cons a b => rfl
  simp [paraBlock, paraLines_all_space h, hemp]

theorem splitParas_no_newline {l : List Char} (h : '\n' ∉ l) : splitParas l = [l] := by
  induction l with
  | nil => rfl
  | cons c cs ih =>
    have hc : c ≠ '\n' := fun he => h (by simp [he])
    have ih2 := ih (fun hm => h (by simp [hm]))
    simp [splitParas, hc, ih2]

/-- Claim C7: an empty buffer yields exactly one
`VisualLine{lineNo = 1, text = "", start = 0, stop = 0}`; the layout is the
concatenation of per-paragraph groups; and every empty paragraph (as arises
from two consecutive newlines or a trailing newline) contributes exactly one
visual line, with empty text and equal offsets at the paragraph boundary. -/
theorem layout_empty_para_c7 (cols : Nat) :
    layout ([] : List Char) cols = [⟨1, [], 0, 0⟩] ∧
    (∀ (ps : List (List Char)) (n pos : Nat),
      layoutParas cols n pos ps = (paraGroups cols n pos ps).flatten) ∧
    (∀ (ps : List (List Char)) (n pos k : Nat),
      ps.getD k [' '] = [] →
      ∃ m q, (paraGroups cols n pos ps).getD k [] = [⟨m, [], q, q⟩]) := by
  refine ⟨rfl, paraGroups_flatten cols, ?_⟩
  intro ps
  induction ps with
  | nil =>
    intro n pos k h
    rw [List.getD_nil] at h
    exact absurd h (by simp)
  | cons p ps' ih =>
    intro n pos k h
    cases k with
    | zero =>
      rw [List.getD_cons_zero] at h
      subst h
      refine ⟨n, pos, ?_⟩
      rw [paraGroups, List.getD_cons_zero]
      rfl
    | succ k' =>
      rw [List.getD_cons_succ] at h
      rw [paraGroups, List.getD_cons_succ]
      exact ih _ _ _ h

/-- Claim C7 witness: in `"a\n\nb"` the middle (empty) paragraph's group is
exactly one empty visual line at offset 2. -/
theorem layout_empty_para_c7_witness :
    (paraGroups 26 1 0 (splitParas ("a\n\nb".toList))).getD 1 [] = [⟨2, [], 2, 2⟩] := by
  have h := (layout_empty_para_c7 26).2.2 (splitParas ("a\n\nb".toList)) 1 0 1 (by decide)
  decide

/-- Claim C10: a non-empty paragraph consisting only of spaces produces zero
visual lines (its group is empty, so no line number addresses it); a whole
buffer of spaces still yields the single fallback line
`VisualLine{1, "", 0, 0}`; and consequently the line count can be smaller
than the number of paragraphs, e.g. for the buffer `"  \nx"`. -/
theorem spaces_para_c10 (cols : Nat) :
    (∀ (ps : List (List Char)) (n pos k : Nat),
      ps.getD k [] ≠ [] → (∀ c ∈ ps.getD k [], c = ' ') →
      (paraGroups cols n pos ps).getD k [⟨0, [' '], 0, 0⟩] = []) ∧
    (∀ t : List Char, t ≠ [] → (∀ c ∈ t, c = ' ') → layout t cols = [⟨1, [], 0, 0⟩]) ∧
    (layout ("  \nx".toList) 26).length < (splitParas ("  \nx".toList)).length := by
  refine ⟨?_, ?_, by decide⟩
  · intro ps
    induction ps with
    | nil =>
      intro n pos k hne hsp
      rw [List.getD_nil] at hne
      exact absurd rfl hne
    | cons p ps' ih =>
      intro n pos k hne hsp
      cases k with
      | zero =>
        rw [List.getD_cons_zero] at hne hsp
        rw [paraGroups, List.getD_cons_zero]
        exact paraBlock_all_space hne hsp cols n pos
      | succ k' =>
        rw [List.getD_cons_succ] at hne hsp
        rw [paraGroups, List.getD_cons_succ]
        exact ih _ _ _ hne hsp
  · intro t hne hsp
    have hnnl : '\n' ∉ t := fun hm => by
      have := hsp '\n' hm
      simp at this
    have hsplit : splitParas t = [t] := splitParas_no_newline hnnl
    rw [layout, hsplit]
    rw [show layoutParas cols 1 0 [t] =
        paraBlock cols 1 0 t ++ layoutParas cols (1 + (paraBlock cols 1 0 t).length)
          (0 + t.length + 1) [] from rfl]
    rw [paraBlock_all_space hne hsp cols 1 0]
    rfl

/-- Claim C10 witness: the group of the space-only paragraph `"  "` is empty,
and the all-space buffer `"   "` yields only the fallback line. -/
theorem spaces_para_c10_witness :
    (paraGroups 26 1 0 [(" ".toList)]).getD 0 [⟨0, [' '], 0, 0⟩] = [] ∧
    layout ("   ".toList) 26 = [⟨1, [], 0, 0⟩] := by
  constructor
  · exact (spaces_para_c10 26).1 [(" ".toList)] 1 0 0 (by decide) (by decide)
  · exact (spaces_para_c10 26).2.1 ("   ".toList) (by decide) (by decide)

end PaperKernel

namespace PaperKernel

/-! ### Cutting an over-long word -/

theorem buildLine_nonspace (fuel cols pos : Nat) {c : Char} {cs : List Char} (ls le : Nat)
    (h : ∀ x ∈ c :: cs, x ≠ ' ') :
    buildLine (fuel + 1) cols pos (c :: cs) [] ls le =
      (if (c :: cs).length ≤ cols then
        ⟨c :: cs, pos, pos + (c :: cs).length, pos + (c :: cs).length, []⟩
      else
        ⟨(c :: cs).take cols, pos, pos + ((c :: cs).take cols).length,
         pos + ((c :: cs).take cols).length,
         (c :: cs).drop ((c :: cs).take cols).length⟩) := by
  have hc : c ≠ ' ' := h c (by simp)
  have hsk : (skipCount (c :: cs)).2 = c :: cs := by rw [skipCount_cons_nonspace cs hc]
  have hsk1 : (skipCount (c :: cs)).1 = 0 := by rw [skipCount_cons_nonspace cs hc]
  have htw : takeWord (c :: cs) = (c :: cs, []) := takeWord_all_nonspace h
  rw [buildLine_succ_cons _ _ _ _ _ _ hsk]
  simp only [htw, hsk1, skipCount, List.isEmpty_nil, if_true, Nat.add_zero]
  by_cases hfit : (c :: cs).length ≤ cols
  · rw [if_pos hfit, if_pos hfit]
    rw [buildLine_rest_nil]
    simp [hc]
  · rw [if_neg hfit, if_neg hfit]
    simp [hc]

/-- Claim C5: for any single space-free, newline-free word longer than the
column width (with `1 ≤ cols`), the first emitted line is exactly the word's
first `cols` characters with span `[0, cols)`, and the following line begins
at offset `cols` with the next up-to-`cols` characters of the remainder; in
particular a 15-character word at `cols = 10` gives a 10-character line
followed by the remaining 5 characters. -/
theorem layout_cut_longword_c5 (w : List Char) (cols : Nat) (h1 : 1 ≤ cols)
    (h2 : cols < w.length) (h3 : ∀ c ∈ w, c ≠ ' ' ∧ c ≠ '\n') :
    ∃ tl, layout w cols =
      ⟨1, w.take cols, 0, cols⟩ ::
        ⟨2, (w.drop cols).take cols, cols, cols + min cols (w.length - cols)⟩ :: tl := by
  have hnsp : ∀ c ∈ w, c ≠ ' ' := fun c hc => (h3 c hc).1
  have hnnl : '\n' ∉ w := fun hmem => (h3 '\n' hmem).2 rfl
  have hsplit : splitParas w = [w] := splitParas_no_newline hnnl
  obtain ⟨c, cs, hw⟩ : ∃ c cs, w = c :: cs := by
    cases w with
    | nil => simp at h2
    | cons c cs => exact ⟨c, cs, rfl⟩
  subst hw
  have hc : c ≠ ' ' := hnsp c (by simp)
  have hsk : (skipCount (c :: cs)).2 = c :: cs := by rw [skipCount_cons_nonspace cs hc]
  have hsk1 : (skipCount (c :: cs)).1 = 0 := by rw [skipCount_cons_nonspace cs hc]
  have hpara : paraLines ((c :: cs).length + 1) cols 1 0 (c :: cs) =
      ⟨1, (c :: cs).take cols, 0, cols⟩ ::
        paraLines (c :: cs).length cols 2 cols ((c :: cs).drop cols) := by
    rw [paraLines_succ_cons ((c :: cs).length) cols 1 0 hsk]
    have hbl := buildLine_nonspace (cs.length + 1) cols (0 + (skipCount (c :: cs)).1)
      (0 + (skipCount (c :: cs)).1) (0 + (skipCount (c :: cs)).1) hnsp
    rw [show cs.length + 1 + 1 = cs.length + 2 from rfl] at hbl
    rw [hbl]
    rw [if_neg (by omega : ¬((c :: cs).length ≤ cols))]
    simp only [hsk1, Nat.add_zero, Nat.zero_add, List.length_take]
    rw [min_eq_left (le_of_lt h2)]
  have hrlen : ((c :: cs).drop cols).length = (c :: cs).length - cols := List.length_drop _ _
  obtain ⟨c2, cs2, hr⟩ : ∃ c2 cs2, (c :: cs).drop cols = c2 :: cs2 := by
    cases hd : (c :: cs).drop cols with
    | nil =>
      rw [hd] at hrlen
      simp only [List.length_nil, List.length_cons] at hrlen
      simp only [List.length_cons] at h2
      omega
    | cons c2 cs2 => exact ⟨c2, cs2, rfl⟩
  have hnsp2 : ∀ x ∈ c2 :: cs2, x ≠ ' ' := by
    intro x hx
    apply hnsp
    exact List.mem_of_mem_drop (l := c :: cs) (n := cols) (by rw [hr]; exact hx)
  have hsk2 : (skipCount (c2 :: cs2)).2 = c2 :: cs2 := by
    rw [skipCount_cons_nonspace cs2 (hnsp2 c2 (by simp))]
  have hsk2a : (skipCount (c2 :: cs2)).1 = 0 := by
    rw [skipCount_cons_nonspace cs2 (hnsp2 c2 (by simp))]
  have hlen2 : (c2 :: cs2).length = (c :: cs).length - cols := by rw [← hr, hrlen]
  have hpara2 : ∃ tl, paraLines (c :: cs).length cols 2 cols ((c :: cs).drop cols) =
      ⟨2, ((c :: cs).drop cols).take cols, cols,
        cols + min cols ((c :: cs).length - cols)⟩ :: tl := by
    rw [hr]
    rw [show ((c :: cs) : List Char).length = cs.length + 1 from rfl]
    simp only [List.length_cons] at hlen2
    simp only [List.length_cons] at h2
    rw [paraLines_succ_cons cs.length cols 2 cols hsk2]
    have hbl := buildLine_nonspace (cs2.length + 1) cols (cols + (skipCount (c2 :: cs2)).1)
      (cols + (skipCount (c2 :: cs2)).1) (cols + (skipCount (c2 :: cs2)).1) hnsp2
    rw [show cs2.length + 1 + 1 = cs2.length + 2 from rfl] at hbl
    rw [hbl]
    by_cases hfit : (c2 :: cs2).length ≤ cols
    · rw [if_pos hfit]
      rw [List.take_of_length_le hfit]
      rw [show min cols (cs.length + 1 - cols) = (c2 :: cs2).length from by
        simp only [List.length_cons] at hfit ⊢
        omega]
      simp only [hsk2a, Nat.add_zero]
      exact ⟨_, rfl⟩
    · rw [if_neg hfit]
      rw [show min cols (cs.length + 1 - cols) = cols from by
        simp only [List.length_cons] at hfit
        omega]
      simp only [hsk2a, Nat.add_zero, List.length_take]
      rw [show min cols (c2 :: cs2).length = cols from by omega]
      exact ⟨_, rfl⟩
  obtain ⟨tl, htl⟩ := hpara2
  have hout : layoutParas cols 1 0 (splitParas (c :: cs)) =
      ⟨1, (c :: cs).take cols, 0, cols⟩ ::
        ⟨2, ((c :: cs).drop cols).take cols, cols,
          cols + min cols ((c :: cs).length - cols)⟩ :: tl := by
    rw [hsplit]
    rw [show layoutParas cols 1 0 [c :: cs] = paraBlock cols 1 0 (c :: cs) ++
        layoutParas cols (1 + (paraBlock cols 1 0 (c :: cs)).length)
          (0 + (c :: cs).length + 1) [] from rfl]
    rw [show layoutParas cols (1 + (paraBlock cols 1 0 (c :: cs)).length)
        (0 + (c :: cs).length + 1) ([] : List (List Char)) = [] from rfl]
    rw [List.append_nil]
    simp only [paraBlock, List.isEmpty_cons, Bool.false_eq_true, if_false, List.append_nil]
    rw [hpara, htl]
  refine ⟨tl, ?_⟩
  simp only [layout, hout, List.isEmpty_cons, Bool.false_eq_true, if_false]

/-- Claim C5 witness: Scenario E, the 15-character word `"abcdefghijklmno"`
wrapped at `columns = 10`. -/
theorem layout_cut_longword_c5_witness :
    layout ("abcdefghijklmno".toList) 10 =
      [⟨1, ("abcdefghij".toList), 0, 10⟩, ⟨2, ("klmno".toList), 10, 15⟩] := by
  have h := layout_cut_longword_c5 ("abcdefghijklmno".toList) 10 (by decide) (by decide)
    (by decide)
  decide

end PaperKernel

namespace PaperKernel

/-! ### Claim C2: read clamping without swap -/

theorem layout_length_pos (s : List Char) (cols : Nat) : 0 < (layout s cols).length := by
  simp only [layout]
  by_cases h : (layoutParas cols 1 0 (splitParas s)).isEmpty
  · simp [h]
  · rw [if_neg (by simpa using h)]
    cases hh : layoutParas cols 1 0 (splitParas s) with
    | nil => rw [hh] at h; simp at h
    | cons x xs => simp

theorem range'_drop : ∀ (m s n : Nat), (List.range' s n).drop m = List.range' (s + m) (n - m) := by
  intro m
  induction m with
  | zero => intro s n; simp
  | succ m ih =>
    intro s n
    cases n with
    | zero => simp
    | succ n =>
      rw [show List.range' s (n + 1) = s :: List.range' (s + 1) n from rfl]
      rw [List.drop_succ_cons]
      rw [ih (s + 1) n]
      rw [show s + 1 + m = s + (m + 1) from by omega, show n - m = n + 1 - (m + 1) from by omega]

theorem range'_take : ∀ (m s n : Nat), (List.range' s n).take m = List.range' s (min m n) := by
  intro m
  induction m with
  | zero => intro s n; simp
  | succ m ih =>
    intro s n
    cases n with
    | zero => simp
    | succ n =>
      rw [show List.range' s (n + 1) = s :: List.range' (s + 1) n from rfl]
      rw [List.take_succ_cons]
      rw [ih (s + 1) n]
      rw [show min (m + 1) (n + 1) = min m n + 1 from by omega]
      rfl

/-- Claim C2 (amended): `read` never mutates (it is a pure function of the
paper); `startLine` is clamped into `[1, lineCount]` and `endLine` into
`[startLine, lineCount]` — reversed bounds are not swapped, instead
`endLine` is raised to `startLine`, so a reversed call returns exactly the
single line `startLine`; the returned lines are exactly the visual lines
numbered `startLine .. endLine`; and on the 3-line buffer `"a\nb\nc"`,
`read(-5, 99999)` returns exactly lines 1..3. -/
theorem read_clamps_c2 (p : Paper) (a b : Int) :
    1 ≤ (readAction p a b).startLine ∧
    (readAction p a b).startLine ≤ (layout p.text p.cols).length ∧
    (readAction p a b).startLine ≤ (readAction p a b).endLine ∧
    (readAction p a b).endLine ≤ (layout p.text p.cols).length ∧
    (readAction p a b).lines.map (fun l => l.line) =
      List.range' (readAction p a b).startLine
        ((readAction p a b).endLine + 1 - (readAction p a b).startLine) ∧
    (b ≤ ((readAction p a b).startLine : Int) →
      (readAction p a b).endLine = (readAction p a b).startLine) ∧
    (readAction (seed (initialPaper 26) ("a\nb\nc".toList)) (-5) 99999).lines.map
      (fun l => l.line) = [1, 2, 3] := by
  have hL : 0 < (layout p.text p.cols).length := layout_length_pos p.text p.cols
  have hs : (readAction p a b).startLine =
      (max 1 (min (jsOr a 1) ((layout p.text p.cols).length : Int))).toNat := rfl
  have he : (readAction p a b).endLine =
      (max (((readAction p a b).startLine : Nat) : Int)
        (min (jsOr b (((readAction p a b).startLine : Nat) : Int))
          ((layout p.text p.cols).length : Int))).toNat := rfl
  have hs1 : 1 ≤ (readAction p a b).startLine := by
    rw [hs]; omega
  have hs2 : (readAction p a b).startLine ≤ (layout p.text p.cols).length := by
    rw [hs]; omega
  have he1 : (readAction p a b).startLine ≤ (readAction p a b).endLine := by
    conv_rhs => rw [he]
    omega
  have he2 : (readAction p a b).endLine ≤ (layout p.text p.cols).length := by
    rw [he]; omega
  refine ⟨hs1, hs2, he1, he2, ?_, ?_, by decide⟩
  · have hlines : (readAction p a b).lines =
        (((layout p.text p.cols).drop ((readAction p a b).startLine - 1)).take
          ((readAction p a b).endLine + 1 - (readAction p a b).startLine)).map
          (fun v => ⟨v.lineNo, v.text, v.start, v.stop⟩) := rfl
    rw [hlines]
    rw [List.map_map]
    have hcomp : ((fun l : ReadLine => l.line) ∘ fun v : VisualLine =>
        (⟨v.lineNo, v.text, v.start, v.stop⟩ : ReadLine)) = fun v : VisualLine => v.lineNo := rfl
    rw [hcomp]
    rw [List.map_take, List.map_drop]
    rw [(layout_ordered p.text p.cols).2.2]
    rw [range'_drop, range'_take]
    rw [show 1 + ((readAction p a b).startLine - 1) = (readAction p a b).startLine from by omega]
    rw [show min ((readAction p a b).endLine + 1 - (readAction p a b).startLine)
        ((layout p.text p.cols).length - ((readAction p a b).startLine - 1)) =
        (readAction p a b).endLine + 1 - (readAction p a b).startLine from by omega]
  · intro hb
    by_cases hb0 : b = 0
    · rw [he]
      simp only [jsOr, hb0, if_pos]
      omega
    · rw [he]
      have hj : jsOr b (((readAction p a b).startLine : Nat) : Int) = b := by
        simp [jsOr, hb0]
      rw [hj]
      omega

/-- Claim C2 witness: on the 3-line buffer, the reversed call `read(3, 1)`
has its endLine raised to its startLine. -/
theorem read_clamps_c2_witness :
    (readAction (seed (initialPaper 26) ("a\nb\nc".toList)) 3 1).endLine =
      (readAction (seed (initialPaper 26) ("a\nb\nc".toList)) 3 1).startLine := by
  exact (read_clamps_c2 (seed (initialPaper 26) ("a\nb\nc".toList)) 3 1).2.2.2.2.2.1 (by decide)

end PaperKernel

namespace PaperKernel

/-! ### Claim C3: the record produced by an empty-normalization replace -/

theorem setDiff_text (p : Paper) (anchorLine : Int) (removedText : Option (List Char))
    (removedLines : Option (List (List Char))) (highlightLines : List Nat) :
    (setDiff p anchorLine removedText removedLines highlightLines).text = p.text := rfl

theorem computeHighlight_empty_span (vis : List VisualLine) (s0 : Nat) :
    computeHighlightLinesByAbsRange vis (s0 : Int) (s0 : Int) =
      (vis.filter (fun v => decide (v.start < s0) && decide (s0 < v.stop))).map
        (fun v => v.lineNo) := by
  simp only [computeHighlightLinesByAbsRange]
  have ha : max 0 (jsOr (s0 : Int) 0) = (s0 : Int) := by
    unfold jsOr
    split <;> omega
  rw [ha]
  have hb : max (s0 : Int) (jsOr (s0 : Int) (s0 : Int)) = (s0 : Int) := by
    unfold jsOr
    split <;> omega
  rw [hb]
  refine congrArg _ (List.filter_congr ?_)
  intro v hv
  simp [Nat.cast_lt]

/-- Claim C3 (amended): for every paper and every anchor, a replace whose
new text normalizes to the empty string produces the record
`removedText = none`, `removedLines = [the target line's original rendered
text]`; and `highlightLines` is exactly the set of post-edit visual lines
whose half-open span strictly contains the splice offset (the target's
original `start`).  That set is usually empty but need not be — see the
counterexample. -/
theorem writeReplace_clear_record_c3 (p : Paper) (a : Int) (newText : List Char)
    (h : trimWs (collapseWs newText) = []) :
    (writeReplaceInternal p a newText).2.removedText = none ∧
    (writeReplaceInternal p a newText).2.removedLines = some [(targetOf p a).text] ∧
    (writeReplaceInternal p a newText).2.highlightLines =
      ((layout (writeReplaceInternal p a newText).1.text p.cols).filter
        (fun v => decide (v.start < (targetOf p a).start) &&
          decide ((targetOf p a).start < v.stop))).map (fun v => v.lineNo) := by
  have htext : (writeReplaceInternal p a newText).1.text =
      p.text.take (targetOf p a).start ++ p.text.drop (targetOf p a).stop := by
    simp only [writeReplaceInternal, targetOf, clampAnchor, setDiff_text, h]
    simp
  have hrt : (writeReplaceInternal p a newText).2.removedText = none := by
    simp only [writeReplaceInternal, h]
    rfl
  have hrl : (writeReplaceInternal p a newText).2.removedLines =
      some [(targetOf p a).text] := by
    simp only [writeReplaceInternal, targetOf, clampAnchor, h]
    rfl
  have hhl : (writeReplaceInternal p a newText).2.highlightLines =
      computeHighlightLinesByAbsRange
        (layout (p.text.take (targetOf p a).start ++ [] ++ p.text.drop (targetOf p a).stop) p.cols)
        ((targetOf p a).start : Int)
        (((targetOf p a).start + ([] : List Char).length : Nat) : Int) := by
    simp only [writeReplaceInternal, targetOf, clampAnchor, h]
  refine ⟨hrt, hrl, ?_⟩
  rw [hhl]
  simp only [List.append_nil, List.length_nil, Nat.add_zero]
  rw [computeHighlight_empty_span, htext]

/-- Claim C3 witness: clearing line 2 of the buffer `"a\nb"` yields
`removedLines = ["b"]`, `removedText = none` and no highlighted lines. -/
theorem writeReplace_clear_record_c3_witness :
    (writeReplaceInternal (seed (initialPaper 26) ("a\nb".toList)) 2 []).2.removedText = none ∧
    (writeReplaceInternal (seed (initialPaper 26) ("a\nb".toList)) 2 []).2.removedLines =
      some [("b".toList)] ∧
    (writeReplaceInternal (seed (initialPaper 26) ("a\nb".toList)) 2 []).2.highlightLines = [] := by
  have h := writeReplace_clear_record_c3 (seed (initialPaper 26) ("a\nb".toList)) 2 [] (by decide)
  exact ⟨h.1, by decide, by decide⟩

end PaperKernel
